import Mathlib

/-!
Shallow embedding of the two-pass assembler in `src/new.py`.

The Python engine consists of the tables `OPCODES` / `REGISTERS`, the
first pass `first_pass` (label resolution), the per-line encoder
`assemble_instruction` (with the module-global `last_cmp` comparison
state), the bit-field packer `format_binary`, and the driver loop of
`assemble_file`.  Strings are modelled on `List Char` (Lean 4.14's
`String` is a wrapper around `List Char`); Python integers are `Int`
with explicit `% 2^w` where the code masks, and fallible code returns
`Except`.
-/

namespace Assembler

/-- Python `str.strip()` on a character list: drop whitespace at both ends. -/
def trimL (l : List Char) : List Char :=
  ((l.dropWhile Char.isWhitespace).reverse.dropWhile Char.isWhitespace).reverse

/-- Python `str.strip()` on a string. -/
def trimS (s : String) : String := (trimL s.data).asString

/-- Python `str.upper()`. -/
def toUpperS (s : String) : String := (s.data.map Char.toUpper).asString

/-- The 5-bit opcode table `OPCODES` of `new.py` (a dict; modelled as its
`get` function). -/
def OPCODES : String → Option String
  | "ADD" => some "00000"
  | "SUB" => some "00001"
  | "MUL" => some "00010"
  | "DIV" => some "00011"
  | "MOD" => some "00100"
  | "CMP" => some "00101"
  | "AND" => some "00110"
  | "OR" => some "00111"
  | "NOT" => some "01000"
  | "MOV" => some "01001"
  | "MOVU" => some "01001"
  | "MOVH" => some "01001"
  | "LSL" => some "01010"
  | "LSR" => some "01011"
  | "ASR" => some "01100"
  | "NOP" => some "01101"
  | "LD" => some "01110"
  | "ST" => some "01111"
  | "BEQ" => some "10000"
  | "BGT" => some "10001"
  | "B" => some "10010"
  | "CALL" => some "10011"
  | "RET" => some "10100"
  | "END" => some "11111"
  | "HLT" => some "11111"
  | _ => none

/-- The 4-bit register table `REGISTERS` of `new.py` (a dict; modelled as
its `get` function). -/
def REGISTERS : String → Option String
  | "R0" => some "0000"
  | "R1" => some "0001"
  | "R2" => some "0010"
  | "R3" => some "0011"
  | "R4" => some "0100"
  | "R5" => some "0101"
  | "R6" => some "0110"
  | "R7" => some "0111"
  | "R8" => some "1000"
  | "R9" => some "1001"
  | "R10" => some "1010"
  | "R11" => some "1011"
  | "R12" => some "1100"
  | "R13" => some "1101"
  | "R14" => some "1110"
  | "R15" => some "1111"
  | _ => none

/-- `REGISTERS.get(tok.upper())` as done at every register lookup site. -/
def regGet (tok : String) : Option String := REGISTERS (toUpperS tok)

/-- The symbol table: a Python dict from label to address.  Insertion
prepends, lookup finds the most recent binding — dict semantics. -/
abbrev SymTab := List (String × Nat)

/-- `symbol_table[k] = v` (dict assignment: later bindings shadow). -/
def symInsert (tbl : SymTab) (k : String) (v : Nat) : SymTab := (k, v) :: tbl

/-- `symbol_table.get(k)`. -/
def symGet (tbl : SymTab) (k : String) : Option Nat :=
  (tbl.find? (fun p => p.1 == k)).map (fun p => p.2)

/-- `symbol_table.get(k, d)`. -/
def symGetD (tbl : SymTab) (k : String) (d : Nat) : Nat := (symGet tbl k).getD d

/-- Nonempty and all decimal digits: Python `str.isdigit()` (ASCII case). -/
def isDigitStr (l : List Char) : Bool := !l.isEmpty && l.all Char.isDigit

/-- `tok.lstrip('-').isdigit()`, the guard selecting immediate forms. -/
def isIntToken (s : String) : Bool := isDigitStr (s.data.dropWhile (fun c => c == '-'))

/-- Numeric value of a list of decimal digits. -/
def decVal (l : List Char) : Nat := l.foldl (fun a c => 10 * a + (c.toNat - 48)) 0

/-- Python `int(tok)` on a whitespace-free token: optional single sign then
decimal digits (digit-grouping underscores are not modelled; no call site
uses them).  `none` models the `ValueError` raise. -/
def pyIntDec (s : String) : Option Int :=
  match s.data with
  | '-' :: rest => if isDigitStr rest then some (-(decVal rest : Int)) else none
  | '+' :: rest => if isDigitStr rest then some ((decVal rest : Int)) else none
  | l => if isDigitStr l then some ((decVal l : Int)) else none

/-- Hexadecimal digit test (both cases), as accepted by `int(s, 16)`. -/
def isHexDigitCh (c : Char) : Bool :=
  c.isDigit || ('a' ≤ c && c ≤ 'f') || ('A' ≤ c && c ≤ 'F')

/-- Value of one hexadecimal digit character. -/
def hexVal1 (c : Char) : Nat :=
  if c.isDigit then c.toNat - 48
  else if 'a' ≤ c && c ≤ 'f' then c.toNat - 87
  else c.toNat - 55

/-- Numeric value of a list of hexadecimal digits. -/
def hexValL (l : List Char) : Nat := l.foldl (fun a c => 16 * a + hexVal1 c) 0

/-- Python `int(s, 16)` at its only call site, where `s` is guaranteed to
start with the literal `0x`.  `none` models the `ValueError` raise. -/
def pyIntHex (s : String) : Option Int :=
  match s.data with
  | '0' :: 'x' :: rest =>
      if !rest.isEmpty && rest.all isHexDigitCh then some ((hexValL rest : Int)) else none
  | _ => none

/-- `s.startswith('0x')` (case-sensitive). -/
def startsWith0x (s : String) : Bool :=
  match s.data with
  | '0' :: 'x' :: _ => true
  | _ => false

/-- `v & 0x3FFFF` on a Python int (two's complement for negatives):
euclidean remainder by `2^18`. -/
def mask18 (v : Int) : Int := v % 262144

/-- `v & 0xFFFF`: euclidean remainder by `2^16`. -/
def mask16 (v : Int) : Int := v % 65536

/-- `v & 0x7FFFFFF`: euclidean remainder by `2^27`. -/
def mask27 (v : Int) : Int := v % 134217728

/-- The low `w` bits of `n`, most significant first.  Models Python
`format(n, '0wb')`, whose every call site masks `n` below `2^w` first. -/
def binDigitsFixed : Nat → Nat → List Char
  | 0, _ => []
  | w + 1, n => binDigitsFixed w (n / 2) ++ [if n % 2 == 1 then '1' else '0']

/-- `format(n, '0wb')` as a string (for `n < 2^w`, as at all call sites). -/
def natToBin (w n : Nat) : String := (binDigitsFixed w n).asString

/-- The low `w` hex digits of `n`, most significant first, uppercase.
Models Python `format(n, '0wX')` for `n < 16^w`, as at its call site. -/
def hexDigitsFixed : Nat → Nat → List Char
  | 0, _ => []
  | w + 1, n =>
      hexDigitsFixed w (n / 16) ++
        [if n % 16 < 10 then Char.ofNat (48 + n % 16) else Char.ofNat (55 + n % 16)]

/-- `format(n, '08X')` for `n < 16^8`, the only use (driver hex output). -/
def toHex8 (n : Nat) : String := (hexDigitsFixed 8 n).asString

/-- Python f-string interpolation of a value that may be `None`: register
lookups that miss render as the four characters `None`. -/
def pyStr (o : Option String) : String :=
  match o with
  | some s => s
  | none => "None"

/-- `format_binary(opcode, i, rd, rs1, rs2, imm)` of `new.py`: the
immediate layout drops `rs2` and packs 18 masked immediate bits; the
register layout appends 14 zero bits. -/
def format_binary (opcode i : String) (rd rs1 rs2 : Option String)
    (imm : Option Int) : String :=
  match imm with
  | some v => opcode ++ i ++ pyStr rd ++ pyStr rs1 ++ natToBin 18 (mask18 v).toNat
  | none => opcode ++ i ++ pyStr rd ++ pyStr rs1 ++ pyStr rs2 ++ (List.replicate 14 '0').asString

/-- Second component of the `last_cmp` tuple: either the (possibly failed)
register lookup of the second operand, or `str(imm)` in the immediate form. -/
inductive CmpOperand where
  | reg (r : Option String)
  | immStr (s : String)
  deriving DecidableEq, Repr

/-- The module-global `last_cmp`: `None` until a `CMP` line is encoded. -/
abbrev CmpState := Option (Option String × CmpOperand)

/-- Encoder error, one constructor per distinct `ValueError` raised by
`assemble_instruction` (plus the `int()` literal failure). -/
inductive AsmErr where
  | unknownInstruction (inst : String)
  | invalidSyntax (inst : String)
  | missingComparison (inst : String)
  | invalidLiteral (tok : String)
  | invalidFormat (inst : String)
  deriving DecidableEq, Repr

/-- The mnemonic list of the three-register / register-immediate class. -/
def ADD_CLASS : List String :=
  ["ADD", "SUB", "MUL", "DIV", "LSL", "LSR", "ASR", "AND", "OR", "MOD", "LD", "ST"]

/-- `parts[0].endswith(':')`. -/
def endsColon (s : String) : Bool :=
  match s.data.getLast? with
  | some c => c == ':'
  | none => false

/-- The leading-label pop of `assemble_instruction`: if the first token
ends in `:`, drop it. -/
def popLabel (parts : List String) : List String :=
  match parts with
  | [] => []
  | p :: rest => if endsColon p then rest else parts

/-- `assemble_instruction` of `new.py` on an already-tokenized line:
returns the emitted bit-string (or `none` for a line with no instruction)
together with the updated `last_cmp` state, or the raised error. -/
def assembleParts (parts0 : List String) (pc : Nat) (st : SymTab)
    (lastCmp : CmpState) : Except AsmErr (Option String × CmpState) :=
  match popLabel parts0 with
  | [] => .ok (none, lastCmp)
  | inst :: rest =>
    match OPCODES inst with
    | none => .error (.unknownInstruction inst)
    | some opcode =>
      if inst ∈ ADD_CLASS then
        match rest with
        | [p1, p2, p3] =>
          if isIntToken p3 then
            match pyIntDec p3 with
            | some v =>
                .ok (some (format_binary opcode "1" (regGet p1) (regGet p2)
                      (some "0000") (some (mask18 v))), lastCmp)
            | none => .error (.invalidLiteral p3)
          else
            .ok (some (format_binary opcode "0" (regGet p1) (regGet p2)
                  (regGet p3) none), lastCmp)
        | _ => .error (.invalidFormat inst)
      else if inst = "CMP" then
        match rest with
        | [p1, p2] =>
          if isIntToken p2 then
            match pyIntDec p2 with
            | some v =>
                .ok (some (format_binary opcode "1" (some "0000") (regGet p1)
                      (some "0000") (some (mask18 v))),
                     some (regGet p1, CmpOperand.immStr (toString (mask18 v).toNat)))
            | none => .error (.invalidLiteral p2)
          else
            .ok (some (format_binary opcode "0" (some "0000") (regGet p1)
                  (regGet p2) none),
                 some (regGet p1, CmpOperand.reg (regGet p2)))
        | _ => .error (.invalidFormat inst)
      else if inst = "NOT" ∨ inst = "MOV" then
        match rest with
        | [p1, p2] =>
          if isIntToken p2 then
            match pyIntDec p2 with
            | some v =>
                .ok (some (format_binary opcode "1" (regGet p1) (some "0000")
                      (some "0000") (some (mask18 v))), lastCmp)
            | none => .error (.invalidLiteral p2)
          else
            .ok (some (format_binary opcode "0" (regGet p1) (some "0000")
                  (regGet p2) none), lastCmp)
        | _ => .error (.invalidFormat inst)
      else if inst = "MOVU" ∨ inst = "MOVH" then
        match rest with
        | [p1, p2] =>
          if startsWith0x (trimS p2) then
            match pyIntHex (trimS p2) with
            | none => .error (.invalidLiteral p2)
            | some v =>
              if inst = "MOVU" then
                .ok (some (format_binary opcode "1" (regGet p1) (some "0000") (some "0000")
                      (some (mask16 v))), lastCmp)
              else
                .ok (some (format_binary opcode "1" (regGet p1) (some "0000") (some "0000")
                      (some (mask18 (v * 65536)))), lastCmp)
          else
            match pyIntDec (trimS p2) with
            | none => .error (.invalidLiteral p2)
            | some v =>
              if inst = "MOVU" then
                .ok (some (format_binary opcode "1" (regGet p1) (some "0000") (some "0000")
                      (some (mask16 v))), lastCmp)
              else
                .ok (some (format_binary opcode "1" (regGet p1) (some "0000") (some "0000")
                      (some (mask18 (v * 65536)))), lastCmp)
        | _ => .error (.invalidFormat inst)
      else if inst = "BEQ" ∨ inst = "BGT" then
        match rest with
        | [lbl] =>
          if lastCmp = none then .error (.missingComparison inst)
          else
            .ok (some (opcode ++
                  natToBin 27 (mask27 ((symGetD st lbl 0 : Int) - ((pc : Int) + 4))).toNat),
                 lastCmp)
        | _ => .error (.invalidSyntax inst)
      else if inst = "B" ∨ inst = "CALL" then
        match rest with
        | [lbl] =>
            .ok (some (opcode ++
                  natToBin 27 (mask27 ((symGetD st lbl 0 : Int) - ((pc : Int) + 4))).toNat),
                 lastCmp)
        | _ => .error (.invalidFormat inst)
      else if inst = "RET" ∨ inst = "NOP" ∨ inst = "HLT" ∨ inst = "END" then
        .ok (some (opcode ++ (List.replicate 27 '0').asString), lastCmp)
      else .error (.invalidFormat inst)

/-- Tokenization of `assemble_instruction`:
`line.replace(",", "").split()` — delete every comma, then split on
whitespace runs. -/
def wsplitAux : List Char → List Char → List (List Char)
  | [], acc => if acc.isEmpty then [] else [acc.reverse]
  | c :: cs, acc =>
      if c.isWhitespace then
        if acc.isEmpty then wsplitAux cs [] else acc.reverse :: wsplitAux cs []
      else wsplitAux cs (c :: acc)

/-- Whitespace split dropping empty fields (Python `str.split()`). -/
def wsplit (l : List Char) : List (List Char) := wsplitAux l []

/-- `line.replace(",", "").split()`. -/
def tokenize (line : String) : List String :=
  (wsplit (line.data.filter (fun c => c ≠ ','))).map List.asString

/-- `assemble_instruction(line, pc)` on the raw line text. -/
def assemble_instruction (line : String) (pc : Nat) (st : SymTab)
    (lastCmp : CmpState) : Except AsmErr (Option String × CmpState) :=
  assembleParts (tokenize line) pc st lastCmp

/-- `line.strip().split('#')[0]` — the comment stripping of `first_pass`. -/
def stripComment (line : String) : String :=
  ((trimL line.data).takeWhile (fun c => c ≠ '#')).asString

/-- `':' in stripped` followed by `stripped.split(':', 1)`. -/
def breakColon (l : List Char) : Option (List Char × List Char) :=
  if ':' ∈ l then some (l.takeWhile (fun c => c ≠ ':'), (l.dropWhile (fun c => c ≠ ':')).tail)
  else none

/-- `pc & ~0b11` for a nonnegative `pc`: clear the two low bits. -/
def alignDown (pc : Nat) : Nat := pc / 4 * 4

/-- One line of `first_pass`: record a label (if any) at the aligned `pc`
and advance `pc` by 4 exactly when the line carries an instruction. -/
def fpStep : SymTab × Nat → String → SymTab × Nat :=
  fun s line =>
    if (stripComment line).data = [] then s
    else
      match breakColon (stripComment line).data with
      | some (label, rest) =>
          if trimL rest ≠ [] then
            (symInsert s.1 (trimS label.asString) (alignDown s.2), s.2 + 4)
          else
            (symInsert s.1 (trimS label.asString) (alignDown s.2), s.2)
      | none => (s.1, s.2 + 4)

/-- `first_pass(lines)` of `new.py`: fold over all lines from `pc = 0`
with an empty table.  (The Python function mutates the module-global
`symbol_table`; it raises no error on any input.) -/
def first_pass (lines : List String) : SymTab × Nat :=
  lines.foldl fpStep ([], 0)

/-- Python `int(s, 2)` at its only call site (a prefix-free, sign-free
candidate bit-string): `none` models the `ValueError` raise. -/
def pyIntBase2 (s : String) : Option Nat :=
  if !s.data.isEmpty && s.data.all (fun c => c == '0' || c == '1') then
    some (s.data.foldl (fun a c => 2 * a + (if c == '1' then 1 else 0)) 0)
  else none

/-- The driver's hex conversion `format(int(binary_code, 2), '08X')`. -/
def hexLineOf (b : String) : Option String := (pyIntBase2 b).map toHex8

/-- The encoding loop of `assemble_file`: encode each line, abort on the
first error, collect emitted words, advance `pc` by 4 only when a line
produced output (the emitted words are nonempty strings, so Python's
truthiness test coincides with the `Option` match). -/
def runEnc : List String → Nat → SymTab → CmpState →
    Except AsmErr (List String × CmpState)
  | [], _, _, s => .ok ([], s)
  | line :: ls, pc, st, s =>
    match assemble_instruction line pc st s with
    | .error e => .error e
    | .ok (none, s') => runEnc ls pc st s'
    | .ok (some b, s') =>
      match runEnc ls (pc + 4) st s' with
      | .error e => .error e
      | .ok (bs, sf) => .ok (b :: bs, sf)

/-! ## Basic facts about the bit-string formatters -/

theorem length_asString (l : List Char) : l.asString.length = l.length := rfl

theorem data_asString (l : List Char) : l.asString.data = l := rfl

theorem length_binDigitsFixed (w n : Nat) : (binDigitsFixed w n).length = w := by
  induction w generalizing n with
  | zero => rfl
  | succ w ih => simp [binDigitsFixed, ih]

theorem mem_binDigitsFixed {w n : Nat} {c : Char} (h : c ∈ binDigitsFixed w n) :
    c = '0' ∨ c = '1' := by
  induction w generalizing n with
  | zero => simp [binDigitsFixed] at h
  | succ w ih =>
    simp only [binDigitsFixed, List.mem_append, List.mem_singleton] at h
    rcases h with h | h
    · exact ih h
    · subst h; split <;> simp

theorem length_hexDigitsFixed (w n : Nat) : (hexDigitsFixed w n).length = w := by
  induction w generalizing n with
  | zero => rfl
  | succ w ih => simp [hexDigitsFixed, ih]

/-- The hex digits emitted by `hexDigitsFixed` are uppercase hexadecimal. -/
theorem mem_hexDigitsFixed {w n : Nat} {c : Char} (h : c ∈ hexDigitsFixed w n) :
    (c.isDigit ∨ ('A' ≤ c ∧ c ≤ 'F')) := by
  induction w generalizing n with
  | zero => simp [hexDigitsFixed] at h
  | succ w ih =>
    simp only [hexDigitsFixed, List.mem_append, List.mem_singleton] at h
    rcases h with h | h
    · exact ih h
    · subst h
      have hlt : n % 16 < 16 := Nat.mod_lt _ (by norm_num)
      revert hlt
      generalize n % 16 = m
      revert m
      decide

/-- Value of the binary digit character emitted for one bit. -/
theorem binDigit_val (n : Nat) :
    (if (if n % 2 == 1 then '1' else '0') == '1' then 1 else 0) = n % 2 := by
  rcases Nat.mod_two_eq_zero_or_one n with h | h <;> rw [h] <;> decide

/-- `foldl` base-2 value of the `w`-bit dump of `n`. -/
theorem foldl_binDigitsFixed (w : Nat) : ∀ n a : Nat,
    (binDigitsFixed w n).foldl (fun a c => 2 * a + (if c == '1' then 1 else 0)) a
      = a * 2 ^ w + n % 2 ^ w := by
  induction w with
  | zero => intro n a; simp [binDigitsFixed, Nat.mod_one]
  | succ w ih =>
    intro n a
    rw [binDigitsFixed, List.foldl_append, ih]
    simp only [List.foldl_cons, List.foldl_nil]
    rw [binDigit_val]
    have h2 : (2 : Nat) ^ (w + 1) = 2 * 2 ^ w := by ring
    rw [h2, Nat.mod_mul]
    ring

theorem hexDigit_val {m : Nat} (hm : m < 16) :
    hexVal1 (if m < 10 then Char.ofNat (48 + m) else Char.ofNat (55 + m)) = m := by
  revert hm; revert m; decide

/-- `foldl` base-16 value of the `w`-digit hex dump of `n`. -/
theorem foldl_hexDigitsFixed (w : Nat) : ∀ n a : Nat,
    (hexDigitsFixed w n).foldl (fun a c => 16 * a + hexVal1 c) a
      = a * 16 ^ w + n % 16 ^ w := by
  induction w with
  | zero => intro n a; simp [hexDigitsFixed, Nat.mod_one]
  | succ w ih =>
    intro n a
    rw [hexDigitsFixed, List.foldl_append, ih]
    simp only [List.foldl_cons, List.foldl_nil]
    rw [hexDigit_val (Nat.mod_lt _ (by norm_num))]
    have h16 : (16 : Nat) ^ (w + 1) = 16 * 16 ^ w := by ring
    rw [h16, Nat.mod_mul]
    ring

/-- The base-2 `foldl` value of a bit list is below `2^length`. -/
theorem foldl_base2_lt (l : List Char) : ∀ a : Nat,
    l.foldl (fun a c => 2 * a + (if c == '1' then 1 else 0)) a < (a + 1) * 2 ^ l.length := by
  induction l with
  | nil => intro a; simp
  | cons c cs ih =>
    intro a
    have hb : (if c == '1' then 1 else 0) ≤ 1 := by split <;> omega
    calc (c :: cs).foldl (fun a c => 2 * a + (if c == '1' then 1 else 0)) a
        = cs.foldl (fun a c => 2 * a + (if c == '1' then 1 else 0))
            (2 * a + (if c == '1' then 1 else 0)) := rfl
      _ < (2 * a + (if c == '1' then 1 else 0) + 1) * 2 ^ cs.length := ih _
      _ ≤ ((a + 1) * 2) * 2 ^ cs.length := by
          have : 2 * a + (if c == '1' then 1 else 0) + 1 ≤ (a + 1) * 2 := by omega
          exact Nat.mul_le_mul_right _ this
      _ = (a + 1) * 2 ^ (c :: cs).length := by
          simp [List.length_cons, pow_succ]; ring

/-! ## Shape of the table entries -/

/-- Every opcode in `OPCODES` is a 5-character bit-string. -/
theorem OPCODES_shape {k op : String} (h : OPCODES k = some op) :
    op.length = 5 ∧ ∀ c ∈ op.data, c = '0' ∨ c = '1' := by
  unfold OPCODES at h
  split at h <;> (try simp only [Option.some.injEq] at h) <;>
    first
    | exact Option.noConfusion h
    | (subst h; exact ⟨rfl, by decide⟩)

/-- Every register code in `REGISTERS` is a 4-character bit-string. -/
theorem REGISTERS_shape {k r : String} (h : REGISTERS k = some r) :
    r.length = 4 ∧ ∀ c ∈ r.data, c = '0' ∨ c = '1' := by
  unfold REGISTERS at h
  split at h <;> (try simp only [Option.some.injEq] at h) <;>
    first
    | exact Option.noConfusion h
    | (subst h; exact ⟨rfl, by decide⟩)

/-- Characters that can appear in an emitted word: bits, plus the four
letters of the Python rendering `None` of a failed register lookup. -/
def charOK (c : Char) : Prop :=
  c = '0' ∨ c = '1' ∨ c = 'N' ∨ c = 'o' ∨ c = 'n' ∨ c = 'e'

instance : DecidablePred charOK := fun c => by unfold charOK; infer_instance

/-- A plain bit character is in the allowed set. -/
theorem charOK_of_bit {c : Char} (h : c = '0' ∨ c = '1') : charOK c :=
  h.elim (fun h => Or.inl h) (fun h => Or.inr (Or.inl h))

/-- A register field as interpolated by `format_binary`: four characters,
all from the allowed set. -/
theorem pyStr_regGet_shape (t : String) :
    (pyStr (regGet t)).length = 4 ∧ ∀ c ∈ (pyStr (regGet t)).data, charOK c := by
  cases h : regGet t with
  | none => exact ⟨rfl, by decide⟩
  | some r =>
    obtain ⟨hl, hc⟩ := REGISTERS_shape h
    exact ⟨hl, fun c hcmem => charOK_of_bit (hc c hcmem)⟩

theorem pyStr_0000_shape :
    (pyStr (some "0000")).length = 4 ∧ ∀ c ∈ (pyStr (some "0000")).data, charOK c := by
  exact ⟨rfl, by decide⟩

/-- Any word built by `format_binary` from well-formed opcode and flag and
4-character register fields is exactly 32 characters from the allowed set. -/
theorem format_binary_shape {opcode i : String} {rd rs1 rs2 : Option String} {imm : Option Int}
    (hop : opcode.length = 5 ∧ ∀ c ∈ opcode.data, c = '0' ∨ c = '1')
    (hi : i = "0" ∨ i = "1")
    (hrd : (pyStr rd).length = 4 ∧ ∀ c ∈ (pyStr rd).data, charOK c)
    (hrs1 : (pyStr rs1).length = 4 ∧ ∀ c ∈ (pyStr rs1).data, charOK c)
    (hrs2 : (pyStr rs2).length = 4 ∧ ∀ c ∈ (pyStr rs2).data, charOK c) :
    (format_binary opcode i rd rs1 rs2 imm).length = 32 ∧
      ∀ c ∈ (format_binary opcode i rd rs1 rs2 imm).data, charOK c := by
  have hilen : i.length = 1 ∧ ∀ c ∈ i.data, charOK c := by
    rcases hi with rfl | rfl <;> exact ⟨rfl, by decide⟩
  cases imm with
  | some v =>
    constructor
    · simp only [format_binary, String.length_append, hop.1, hilen.1, hrd.1, hrs1.1,
        length_asString, natToBin, length_binDigitsFixed]
    · intro c hc
      simp only [format_binary, String.data_append, List.mem_append, natToBin,
        data_asString] at hc
      rcases hc with (((hc | hc) | hc) | hc) | hc
      · exact charOK_of_bit (hop.2 c hc)
      · exact hilen.2 c hc
      · exact hrd.2 c hc
      · exact hrs1.2 c hc
      · exact charOK_of_bit (mem_binDigitsFixed hc)
  | none =>
    constructor
    · simp only [format_binary, String.length_append, hop.1, hilen.1, hrd.1, hrs1.1, hrs2.1,
        length_asString, List.length_replicate]
    · intro c hc
      simp only [format_binary, String.data_append, List.mem_append, data_asString] at hc
      rcases hc with ((((hc | hc) | hc) | hc) | hc) | hc
      · exact charOK_of_bit (hop.2 c hc)
      · exact hilen.2 c hc
      · exact hrd.2 c hc
      · exact hrs1.2 c hc
      · exact hrs2.2 c hc
      · rcases List.eq_of_mem_replicate hc with rfl
        exact Or.inl rfl

/-! ## The comparison state across encoder steps -/

/-- A token line that updates `last_cmp`: after the optional label pop it
is a three-token `CMP` line whose immediate operand (when the digit guard
fires) parses, so that the `CMP` branch returns instead of raising. -/
def cmpSets (parts : List String) : Bool :=
  match popLabel parts with
  | [i, _, b] => i == "CMP" && (!(isIntToken b) || (pyIntDec b).isSome)
  | _ => false

/-- State evolution of one encoder step: a successful encode leaves
`last_cmp` set exactly when it was set before or the line is a
state-setting `CMP`. -/
theorem assembleParts_state {parts : List String} {pc : Nat} {st : SymTab} {s : CmpState}
    {r : Option String × CmpState} (h : assembleParts parts pc st s = .ok r) :
    r.2.isSome ↔ (s.isSome ∨ cmpSets parts = true) := by
  unfold assembleParts at h
  repeat' split at h
  all_goals (try cases h)
  all_goals simp_all [cmpSets]
  all_goals (intro hx; split at hx <;> simp_all)

/-- State evolution across the driver loop: after a successful run the
comparison state is set exactly when it started set or some line of the
stream is a state-setting `CMP`. -/
theorem runEnc_state : ∀ (lines : List String) (pc : Nat) (st : SymTab) (s : CmpState)
    (outs : List String) (sf : CmpState),
    runEnc lines pc st s = .ok (outs, sf) →
    (sf.isSome ↔ (s.isSome ∨ ∃ line ∈ lines, cmpSets (tokenize line) = true)) := by
  intro lines
  induction lines with
  | nil =>
    intro pc st s outs sf h
    unfold runEnc at h
    cases h
    simp
  | cons line ls ih =>
    intro pc st s outs sf h
    unfold runEnc at h
    unfold assemble_instruction at h
    cases hstep : assembleParts (tokenize line) pc st s with
    | error e => rw [hstep] at h; cases h
    | ok p =>
      rw [hstep] at h
      obtain ⟨o, s'⟩ := p
      have hstate := assembleParts_state hstep
      cases o with
      | none =>
        have hst : s'.isSome = true ↔
            (s.isSome = true ∨ cmpSets (tokenize line) = true) := hstate
        have hrec := ih pc st s' outs sf h
        simp only [List.mem_cons, exists_eq_or_imp]
        constructor
        · intro hsf
          rcases hrec.mp hsf with hs' | hex
          · rcases hst.mp hs' with hs | hc
            · exact Or.inl hs
            · exact Or.inr (Or.inl hc)
          · exact Or.inr (Or.inr hex)
        · intro hcase
          apply hrec.mpr
          rcases hcase with hs | hc | hex
          · exact Or.inl (hst.mpr (Or.inl hs))
          · exact Or.inl (hst.mpr (Or.inr hc))
          · exact Or.inr hex
      | some b =>
        dsimp only at h
        cases hrec : runEnc ls (pc + 4) st s' with
        | error e => rw [hrec] at h; cases h
        | ok q =>
          rw [hrec] at h
          obtain ⟨bs, sf'⟩ := q
          cases h
          have hst : s'.isSome = true ↔
              (s.isSome = true ∨ cmpSets (tokenize line) = true) := hstate
          have hih := ih (pc + 4) st s' bs sf hrec
          simp only [List.mem_cons, exists_eq_or_imp]
          constructor
          · intro hsf
            rcases hih.mp hsf with hs' | hex
            · rcases hst.mp hs' with hs | hc
              · exact Or.inl hs
              · exact Or.inr (Or.inl hc)
            · exact Or.inr (Or.inr hex)
          · intro hcase
            apply hih.mpr
            rcases hcase with hs | hc | hex
            · exact Or.inl (hst.mpr (Or.inl hs))
            · exact Or.inl (hst.mpr (Or.inr hc))
            · exact Or.inr hex

/-- Evaluation of the conditional-branch arm: a `BEQ`/`BGT` line with one
operand raises `MissingComparison` when `last_cmp` is unset, and otherwise
emits the opcode followed by the 27-bit masked relative offset. -/
theorem assembleParts_condBranch (inst lbl : String) (pc : Nat) (st : SymTab) (s : CmpState)
    (hinst : inst = "BEQ" ∨ inst = "BGT") :
    assembleParts [inst, lbl] pc st s =
      if s = none then .error (.missingComparison inst)
      else .ok (some ((OPCODES inst).getD "" ++
        natToBin 27 (mask27 ((symGetD st lbl 0 : Int) - ((pc : Int) + 4))).toNat), s) := by
  rcases hinst with rfl | rfl <;>
    simp +decide [assembleParts, popLabel, endsColon, OPCODES, ADD_CLASS]

/-- Evaluation of the unconditional jump/call arm: a `B`/`CALL` line with
one operand always emits the opcode followed by the masked offset. -/
theorem assembleParts_jump (inst lbl : String) (pc : Nat) (st : SymTab) (s : CmpState)
    (hinst : inst = "B" ∨ inst = "CALL") :
    assembleParts [inst, lbl] pc st s =
      .ok (some ((OPCODES inst).getD "" ++
        natToBin 27 (mask27 ((symGetD st lbl 0 : Int) - ((pc : Int) + 4))).toNat), s) := by
  rcases hinst with rfl | rfl <;>
    simp +decide [assembleParts, popLabel, endsColon, OPCODES, ADD_CLASS]

/-- Words of the branch layout: a table opcode followed by 27 bits. -/
theorem opcode27_shape {k opcode : String} (h : OPCODES k = some opcode) (m : Nat) :
    (opcode ++ natToBin 27 m).length = 32 ∧
      ∀ c ∈ (opcode ++ natToBin 27 m).data, charOK c := by
  obtain ⟨hl, hc⟩ := OPCODES_shape h
  constructor
  · simp [String.length_append, hl, natToBin, length_asString, length_binDigitsFixed]
  · intro c hcmem
    simp only [String.data_append, List.mem_append, natToBin, data_asString] at hcmem
    rcases hcmem with hcm | hcm
    · exact charOK_of_bit (hc c hcm)
    · exact charOK_of_bit (mem_binDigitsFixed hcm)

/-- Words of the no-operand layout: a table opcode followed by 27 zeros. -/
theorem opcode_zeros_shape {k opcode : String} (h : OPCODES k = some opcode) :
    (opcode ++ (List.replicate 27 '0').asString).length = 32 ∧
      ∀ c ∈ (opcode ++ (List.replicate 27 '0').asString).data, charOK c := by
  obtain ⟨hl, hc⟩ := OPCODES_shape h
  constructor
  · simp [String.length_append, hl, length_asString]
  · intro c hcmem
    simp only [String.data_append, List.mem_append, data_asString] at hcmem
    rcases hcmem with hcm | hcm
    · exact charOK_of_bit (hc c hcm)
    · rcases List.eq_of_mem_replicate hcm with rfl
      exact Or.inl rfl

section
attribute [local irreducible] format_binary natToBin

/-- C4 (amended): every bit-string returned by the encoder has exactly 32
characters; each character is a bit, except that a failed register lookup
interpolates the four letters of `None` into the corresponding field. -/
theorem emitted_word_length_charset (parts : List String) (pc : Nat) (st : SymTab)
    (s : CmpState) (out : String) (s' : CmpState)
    (h : assembleParts parts pc st s = .ok (some out, s')) :
    out.length = 32 ∧ ∀ c ∈ out.data, charOK c := by
  unfold assembleParts at h
  repeat' split at h
  all_goals (try cases h)
  all_goals
    (first
      | exact opcode_zeros_shape (by assumption)
      | exact opcode27_shape (by assumption) _
      | exact format_binary_shape (OPCODES_shape (by assumption))
          (by first | exact Or.inl rfl | exact Or.inr rfl)
          (by first | exact pyStr_regGet_shape _ | exact pyStr_0000_shape)
          (by first | exact pyStr_regGet_shape _ | exact pyStr_0000_shape)
          (by first | exact pyStr_regGet_shape _ | exact pyStr_0000_shape))

end

/-- C4 (counterexample): an `ADD` whose second source register token is not
in the register table still returns successfully, with the four characters
`None` in the middle of the 32-character word — not a pure `{0,1}` string. -/
theorem emitted_word_binary_cex :
    assembleParts ["ADD", "R1", "RX", "5"] 0 [] none =
      .ok (some "0000010001None000000000000000101", none) ∧
    ¬ ∀ c ∈ "0000010001None000000000000000101".data, c = '0' ∨ c = '1' := by
  constructor
  · rfl
  · decide

/-- C8: the comparison state is never cleared by an encoder step — any
successful step starting from a set state ends in a set state. -/
theorem cmp_state_persists (parts : List String) (pc : Nat) (st : SymTab)
    (s : CmpState) (r : Option String × CmpState)
    (h : assembleParts parts pc st s = .ok r) (hs : s ≠ none) : r.2 ≠ none := by
  have hst := assembleParts_state h
  have h2 : r.2.isSome = true := hst.mpr (Or.inl (Option.isSome_iff_ne_none.mpr hs))
  exact Option.isSome_iff_ne_none.mp h2

/-- C8 witness. -/
theorem cmp_state_persists_witness :
    assembleParts ["NOP"] 0 [] (some (some "0001", CmpOperand.reg (some "0010"))) =
      .ok (some "01101000000000000000000000000000",
        some (some "0001", CmpOperand.reg (some "0010"))) ∧
    (some (some "0001", CmpOperand.reg (some "0010")) : CmpState) ≠ none ∧
    (some "01101000000000000000000000000000",
      (some (some "0001", CmpOperand.reg (some "0010")) : CmpState)).2 ≠ none := by
  refine ⟨rfl, by decide, ?_⟩
  exact cmp_state_persists ["NOP"] 0 []
    (some (some "0001", CmpOperand.reg (some "0010")))
    (some "01101000000000000000000000000000",
      some (some "0001", CmpOperand.reg (some "0010"))) rfl (by decide)

/-- C1: for any stream successfully encoded from the initial (unset)
comparison state, a following `BEQ`/`BGT` with exactly one operand raises
`MissingComparison` exactly when no state-setting `CMP` line occurs in the
stream; and when one does, the branch always encodes successfully,
whatever the `CMP` operands were. -/
theorem beq_missing_comparison_iff
    (pre : List String) (st : SymTab) (outs : List String) (s : CmpState)
    (inst lbl : String) (pc : Nat)
    (hinst : inst = "BEQ" ∨ inst = "BGT")
    (hrun : runEnc pre 0 st none = .ok (outs, s)) :
    ((∃ e, assembleParts [inst, lbl] pc st s = .error (.missingComparison e)) ↔
      ¬ ∃ line ∈ pre, cmpSets (tokenize line) = true) ∧
    ((∃ line ∈ pre, cmpSets (tokenize line) = true) →
      ∃ w, assembleParts [inst, lbl] pc st s = .ok (some w, s)) := by
  have hs := runEnc_state pre 0 st none outs s hrun
  simp only [Option.isSome_none, Bool.false_eq_true, false_or] at hs
  have hbr := assembleParts_condBranch inst lbl pc st s hinst
  constructor
  · constructor
    · rintro ⟨e, he⟩ hex
      have hsome : s.isSome = true := hs.mpr hex
      rw [hbr, if_neg (Option.isSome_iff_ne_none.mp hsome)] at he
      cases he
    · intro hnex
      have hsn : s = none := by
        cases hso : s with
        | none => rfl
        | some v => exact absurd (hs.mp (by rw [hso]; rfl)) hnex
      rw [hbr, if_pos hsn]
      exact ⟨inst, rfl⟩
  · intro hex
    have hsome : s.isSome = true := hs.mpr hex
    rw [hbr, if_neg (Option.isSome_iff_ne_none.mp hsome)]
    exact ⟨_, rfl⟩

/-- The positional base-2 value of a bit-string, most significant first
(the value `int(s, 2)` computes on a valid bit-string). -/
def bitsVal (l : List Char) : Nat :=
  l.foldl (fun a c => 2 * a + (if c == '1' then 1 else 0)) 0

/-- C2: every branch/call (`BEQ`/`BGT`/`B`/`CALL`) with one label operand
(for the conditional ones, after some `CMP`) emits a 32-bit word that is
the 5-bit opcode followed by a 27-bit field whose value is the
two's-complement masked offset `target - (pc + 4)`, where an absent label
resolves to target 0 (via the `get` default) without error. -/
theorem branch_call_encoding (inst lbl : String) (pc : Nat) (st : SymTab) (s : CmpState)
    (hinst : inst = "BEQ" ∨ inst = "BGT" ∨ inst = "B" ∨ inst = "CALL")
    (hcond : (inst = "BEQ" ∨ inst = "BGT") → s ≠ none) :
    ∃ w, assembleParts [inst, lbl] pc st s = .ok (some w, s) ∧
      w.length = 32 ∧
      w.data.take 5 = ((OPCODES inst).getD "").data ∧
      (∀ c ∈ w.data.drop 5, c = '0' ∨ c = '1') ∧
      (bitsVal (w.data.drop 5) : Int) =
        ((((symGet st lbl).getD 0 : Nat) : Int) - ((pc : Int) + 4)) % 134217728 := by
  have hres : assembleParts [inst, lbl] pc st s =
      .ok (some ((OPCODES inst).getD "" ++
        natToBin 27 (mask27 ((symGetD st lbl 0 : Int) - ((pc : Int) + 4))).toNat), s) := by
    rcases hinst with h | h | h | h
    · rw [assembleParts_condBranch inst lbl pc st s (Or.inl h),
        if_neg (hcond (Or.inl h))]
    · rw [assembleParts_condBranch inst lbl pc st s (Or.inr h),
        if_neg (hcond (Or.inr h))]
    · exact assembleParts_jump inst lbl pc st s (Or.inl h)
    · exact assembleParts_jump inst lbl pc st s (Or.inr h)
  refine ⟨_, hres, ?_, ?_, ?_, ?_⟩
  · have hop : ((OPCODES inst).getD "").length = 5 := by
      rcases hinst with rfl | rfl | rfl | rfl <;> rfl
    simp [String.length_append, hop, natToBin, length_asString, length_binDigitsFixed]
  · have hop : ((OPCODES inst).getD "").data.length = 5 := by
      rcases hinst with rfl | rfl | rfl | rfl <;> rfl
    rw [String.data_append, natToBin, data_asString, List.take_append_of_le_length (by omega),
      List.take_of_length_le (by omega)]
  · have hop : ((OPCODES inst).getD "").data.length = 5 := by
      rcases hinst with rfl | rfl | rfl | rfl <;> rfl
    intro c hc
    rw [String.data_append, natToBin, data_asString, List.drop_append_of_le_length (by omega),
      List.drop_of_length_le (by omega), List.nil_append] at hc
    exact mem_binDigitsFixed hc
  · have hop : ((OPCODES inst).getD "").data.length = 5 := by
      rcases hinst with rfl | rfl | rfl | rfl <;> rfl
    rw [String.data_append, natToBin, data_asString, List.drop_append_of_le_length (by omega),
      List.drop_of_length_le (by omega), List.nil_append]
    have hnn : (0 : Int) ≤ mask27 ((symGetD st lbl 0 : Int) - ((pc : Int) + 4)) :=
      Int.emod_nonneg _ (by norm_num)
    have hlt : mask27 ((symGetD st lbl 0 : Int) - ((pc : Int) + 4)) < 134217728 :=
      Int.emod_lt_of_pos _ (by norm_num)
    have htoNat : (mask27 ((symGetD st lbl 0 : Int) - ((pc : Int) + 4))).toNat < 2 ^ 27 := by
      rw [Int.toNat_lt hnn]
      exact_mod_cast hlt
    rw [bitsVal, foldl_binDigitsFixed, Nat.zero_mul, Nat.zero_add, Nat.mod_eq_of_lt htoNat]
    rw [Int.toNat_of_nonneg hnn]
    rfl

/-! ## First pass: labels and the program counter -/

/-- One first-pass step keeps the program counter 4-aligned. -/
theorem fpStep_pc_aligned (s : SymTab × Nat) (line : String) (h : s.2 % 4 = 0) :
    (fpStep s line).2 % 4 = 0 := by
  unfold fpStep
  repeat' split
  all_goals simp_all

/-- The first-pass program counter is always a multiple of 4. -/
theorem first_pass_pc_aligned (lines : List String) : (first_pass lines).2 % 4 = 0 := by
  have haux : ∀ (ls : List String) (s : SymTab × Nat), s.2 % 4 = 0 →
      (ls.foldl fpStep s).2 % 4 = 0 := by
    intro ls
    induction ls with
    | nil => intro s hs; exact hs
    | cons l ls ih => intro s hs; exact ih _ (fpStep_pc_aligned s l hs)
  exact haux lines ([], 0) rfl

/-- Breaking an empty character list at a colon fails. -/
theorem breakColon_nil : breakColon [] = none := rfl

/-- C3: a first-pass line carrying a label records the label at the
current (4-aligned) `pc`; the counter advances by 4 exactly when an
instruction follows the colon on the same line, so a label-only line
passes its address on to the next instruction-bearing line. -/
theorem first_pass_label_addresses :
    (∀ lines, (first_pass lines).2 % 4 = 0) ∧
    (∀ (tbl : SymTab) (pc : Nat) (line : String) (label rest : List Char),
      pc % 4 = 0 →
      breakColon (stripComment line).data = some (label, rest) →
      ((trimL rest ≠ [] →
         fpStep (tbl, pc) line = (symInsert tbl (trimS label.asString) pc, pc + 4)) ∧
       (trimL rest = [] →
         fpStep (tbl, pc) line = (symInsert tbl (trimS label.asString) pc, pc)))) := by
  refine ⟨first_pass_pc_aligned, ?_⟩
  intro tbl pc line label rest hpc hbc
  have hne : (stripComment line).data ≠ [] := by
    intro he
    rw [he, breakColon_nil] at hbc
    cases hbc
  have halign : alignDown pc = pc := by
    unfold alignDown
    omega
  constructor
  · intro hrest
    unfold fpStep
    rw [if_neg (by simpa using hne), hbc]
    dsimp only
    rw [if_pos hrest, halign]
  · intro hrest
    unfold fpStep
    rw [if_neg (by simpa using hne), hbc]
    dsimp only
    rw [if_neg (by simp [hrest]), halign]

/-- C3 witness: `"loop: ADD R1 R2 R3"` at `pc = 8` records `loop ↦ 8` and
advances to 12; a bare `"done:"` records `done ↦ 8` and stays at 8. -/
theorem first_pass_label_addresses_witness :
    (first_pass ["NOP", "NOP", "loop: ADD R1 R2 R3"]).2 % 4 = 0 ∧
    fpStep ([], 8) "loop: ADD R1 R2 R3" = ([("loop", 8)], 12) ∧
    fpStep ([], 8) "done:" = ([("done", 8)], 8) := by
  refine ⟨first_pass_label_addresses.1 _, ?_, ?_⟩
  · have h := ((first_pass_label_addresses.2 [] 8 "loop: ADD R1 R2 R3"
      "loop".data " ADD R1 R2 R3".data (by decide) (by decide)).1 (by decide))
    exact h
  · have h := ((first_pass_label_addresses.2 [] 8 "done:"
      "done".data [] (by decide) (by decide)).2 (by decide))
    exact h

/-- C10: a later definition of a label overwrites any earlier binding —
processing a label line maps the label to the address computed there,
whatever the table held before, and lines that do not define a name leave
its binding unchanged; the first pass raises no error on redefinition
(`fpStep` is total). -/
theorem duplicate_label_last_wins :
    (∀ (tbl : SymTab) (pc : Nat) (line : String) (label rest : List Char),
      breakColon (stripComment line).data = some (label, rest) →
      symGet (fpStep (tbl, pc) line).1 (trimS label.asString) = some (alignDown pc)) ∧
    (∀ (tbl : SymTab) (pc : Nat) (line : String) (k : String),
      (∀ label rest, breakColon (stripComment line).data = some (label, rest) →
        trimS label.asString ≠ k) →
      symGet (fpStep (tbl, pc) line).1 k = symGet tbl k) := by
  constructor
  · intro tbl pc line label rest hbc
    have hne : (stripComment line).data ≠ [] := by
      intro he
      rw [he, breakColon_nil] at hbc
      cases hbc
    unfold fpStep
    rw [if_neg (by simpa using hne), hbc]
    dsimp only
    split <;> simp [symGet, symInsert, List.find?]
  · intro tbl pc line k hk
    unfold fpStep
    split
    · rfl
    · split
      · rename_i label rest hbc
        have hne := hk label rest hbc
        have hbe : (trimS label.asString == k) = false := beq_eq_false_iff_ne.mpr hne
        split <;> simp [symGet, symInsert, List.find?, hbe]
      · rfl

/-- C10 witness: redefining `x` on a later line overwrites the earlier
address 0 with the new address 4, and no error occurs. -/
theorem duplicate_label_last_wins_witness :
    symGet (fpStep ([("x", 0)], 4) "x: SUB R1 R2 R3").1 "x" = some (alignDown 4) ∧
    symGet (fpStep ([("x", 0)], 4) "ADD R1 R2 R3").1 "y" = symGet [("x", 0)] "y" := by
  constructor
  · exact duplicate_label_last_wins.1 [("x", 0)] 4 "x: SUB R1 R2 R3"
      "x".data " SUB R1 R2 R3".data (by decide)
  · exact duplicate_label_last_wins.2 [("x", 0)] 4 "ADD R1 R2 R3" "y"
      (by intro label rest h; cases h)

/-! ## Comments, literals, and case sensitivity -/

/-- C5 (counterexample): the encoder does not strip `#` comments — the
comment text is tokenized as extra operands, so a valid `ADD` line fails
once a trailing comment is added, while the bare line encodes fine. -/
theorem comment_stripping_cex :
    assemble_instruction "ADD R1, R2, R3 # sum" 0 [] none =
      .error (.invalidFormat "ADD") ∧
    assemble_instruction "ADD R1, R2, R3" 0 [] none =
      .ok (some "00000000010010001100000000000000", none) ∧
    assemble_instruction "ADD R1, R2, R3 # sum" 0 [] none ≠
      assemble_instruction "ADD R1, R2, R3" 0 [] none := by
  refine ⟨rfl, rfl, ?_⟩
  intro hc
  exact Except.noConfusion hc

/-- C6 (counterexample): a `0x` literal is not accepted as an immediate by
the `ADD` class — the digit guard fails, the token is treated as a third
register (whose lookup misses), and the word differs from the one the
numerically equal decimal literal produces. -/
theorem hex_literal_cex :
    assembleParts ["ADD", "R1", "R2", "0x5"] 0 [] none =
      .ok (some "00000000010010None00000000000000", none) ∧
    assembleParts ["ADD", "R1", "R2", "5"] 0 [] none =
      .ok (some "00000100010010000000000000000101", none) ∧
    ("00000000010010None00000000000000" : String) ≠ "00000100010010000000000000000101" := by
  exact ⟨rfl, rfl, by decide⟩

/-- C6 (amended): only `MOVU`/`MOVH` parse `0x` literals; for them a
`0x`-prefixed literal and a numerically equal decimal literal produce the
same word and state. -/
theorem movu_movh_hex_decimal_equiv (inst rt htok dtok : String) (pc : Nat) (st : SymTab)
    (s : CmpState) (v : Int)
    (hinst : inst = "MOVU" ∨ inst = "MOVH")
    (hhex0x : startsWith0x (trimS htok) = true)
    (hhex : pyIntHex (trimS htok) = some v)
    (hdec0x : startsWith0x (trimS dtok) = false)
    (hdec : pyIntDec (trimS dtok) = some v) :
    assembleParts [inst, rt, htok] pc st s = assembleParts [inst, rt, dtok] pc st s := by
  rcases hinst with rfl | rfl <;>
    simp +decide [assembleParts, popLabel, endsColon, OPCODES, ADD_CLASS,
      hhex0x, hhex, hdec0x, hdec]

/-- C6 witness: `MOVU R1 0x1A` and `MOVU R1 26` encode identically. -/
theorem movu_movh_hex_decimal_equiv_witness :
    startsWith0x (trimS "0x1A") = true ∧ pyIntHex (trimS "0x1A") = some 26 ∧
    startsWith0x (trimS "26") = false ∧ pyIntDec (trimS "26") = some 26 ∧
    assembleParts ["MOVU", "R1", "0x1A"] 0 [] none =
      assembleParts ["MOVU", "R1", "26"] 0 [] none :=
  ⟨by decide, by decide, by decide, by decide,
   movu_movh_hex_decimal_equiv "MOVU" "R1" "0x1A" "26" 0 [] none 26 (Or.inl rfl)
     (by decide) (by decide) (by decide) (by decide)⟩

/-- C7: for every 32-character bit-string, the driver's hex conversion
produces exactly 8 uppercase hexadecimal characters whose numeric value
equals the bit-string's value. -/
theorem hex_line_matches_binary (s : String)
    (hlen : s.length = 32)
    (hbits : ∀ c ∈ s.data, c = '0' ∨ c = '1') :
    ∃ h, hexLineOf s = some h ∧ h.length = 8 ∧
      (∀ c ∈ h.data, c.isDigit = true ∨ ('A' ≤ c ∧ c ≤ 'F')) ∧
      hexValL h.data = bitsVal s.data := by
  have hdlen : s.data.length = 32 := hlen
  have hne : s.data.isEmpty = false := by
    cases hd : s.data with
    | nil => rw [hd] at hdlen; cases hdlen
    | cons c cs => rfl
  have hall : s.data.all (fun c => c == '0' || c == '1') = true := by
    rw [List.all_eq_true]
    intro c hc
    rcases hbits c hc with rfl | rfl <;> rfl
  have hval : pyIntBase2 s = some (bitsVal s.data) := by
    unfold pyIntBase2
    rw [if_pos (by rw [hne, hall]; rfl)]
    rfl
  have hlt : bitsVal s.data < 2 ^ 32 := by
    have hb := foldl_base2_lt s.data 0
    rw [hdlen] at hb
    simpa [bitsVal] using hb
  refine ⟨toHex8 (bitsVal s.data), ?_, ?_, ?_, ?_⟩
  · unfold hexLineOf
    rw [hval]
    rfl
  · simp [toHex8, length_asString, length_hexDigitsFixed]
  · intro c hc
    exact mem_hexDigitsFixed (by simpa [toHex8, data_asString] using hc)
  · rw [toHex8, data_asString, hexValL, foldl_hexDigitsFixed]
    simp only [Nat.zero_mul, Nat.zero_add]
    exact Nat.mod_eq_of_lt (by norm_num at hlt ⊢; exact hlt)

/-- C7 witness: the word `HLT` emits at any pc. -/
theorem hex_line_matches_binary_witness :
    ("11111000000000000000000000000000" : String).length = 32 ∧
    (∀ c ∈ ("11111000000000000000000000000000" : String).data, c = '0' ∨ c = '1') ∧
    ∃ h, hexLineOf "11111000000000000000000000000000" = some h ∧ h.length = 8 ∧
      (∀ c ∈ h.data, c.isDigit = true ∨ ('A' ≤ c ∧ c ≤ 'F')) ∧
      hexValL h.data = bitsVal ("11111000000000000000000000000000" : String).data :=
  ⟨by decide, by decide,
   hex_line_matches_binary "11111000000000000000000000000000" (by decide) (by decide)⟩

/-- C9: register tokens are uppercased before the table lookup, so
changing only the letter case of a register operand never changes the
encoding, in every operand position of every register-taking form — while
a lowercase mnemonic is rejected as an unknown instruction. -/
theorem register_case_insensitive :
    (∀ (m a b c a2 b2 : String) (pc : Nat) (st : SymTab) (s : CmpState),
      m ∈ ADD_CLASS →
      toUpperS a = toUpperS a2 → toUpperS b = toUpperS b2 →
      assembleParts [m, a, b, c] pc st s = assembleParts [m, a2, b2, c] pc st s) ∧
    (∀ (m a b c c2 : String) (pc : Nat) (st : SymTab) (s : CmpState),
      m ∈ ADD_CLASS →
      toUpperS c = toUpperS c2 → isIntToken c = false → isIntToken c2 = false →
      assembleParts [m, a, b, c] pc st s = assembleParts [m, a, b, c2] pc st s) ∧
    (∀ (m a a2 b : String) (pc : Nat) (st : SymTab) (s : CmpState),
      (m = "CMP" ∨ m = "NOT" ∨ m = "MOV" ∨ m = "MOVU" ∨ m = "MOVH") →
      toUpperS a = toUpperS a2 →
      assembleParts [m, a, b] pc st s = assembleParts [m, a2, b] pc st s) ∧
    (∀ (m a b b2 : String) (pc : Nat) (st : SymTab) (s : CmpState),
      (m = "CMP" ∨ m = "NOT" ∨ m = "MOV") →
      toUpperS b = toUpperS b2 → isIntToken b = false → isIntToken b2 = false →
      assembleParts [m, a, b] pc st s = assembleParts [m, a, b2] pc st s) ∧
    assembleParts ["add", "R1", "R2", "R3"] 0 [] none =
      .error (.unknownInstruction "add") := by
  refine ⟨?_, ?_, ?_, ?_, rfl⟩
  · intro m a b c a2 b2 pc st s hm ha hb
    have ha2 : regGet a = regGet a2 := by unfold regGet; rw [ha]
    have hb2 : regGet b = regGet b2 := by unfold regGet; rw [hb]
    simp only [ADD_CLASS, List.mem_cons, List.mem_singleton, List.not_mem_nil, or_false] at hm
    rcases hm with rfl | rfl | rfl | rfl | rfl | rfl | rfl | rfl | rfl | rfl | rfl | rfl <;>
      simp +decide [assembleParts, popLabel, endsColon, ha2, hb2]
  · intro m a b c c2 pc st s hm hc hic hic2
    have hc2 : regGet c = regGet c2 := by unfold regGet; rw [hc]
    simp only [ADD_CLASS, List.mem_cons, List.mem_singleton, List.not_mem_nil, or_false] at hm
    rcases hm with rfl | rfl | rfl | rfl | rfl | rfl | rfl | rfl | rfl | rfl | rfl | rfl <;>
      simp +decide [assembleParts, popLabel, endsColon, hc2, hic, hic2]
  · intro m a a2 b pc st s hm ha
    have ha2 : regGet a = regGet a2 := by unfold regGet; rw [ha]
    rcases hm with rfl | rfl | rfl | rfl | rfl <;>
      simp +decide [assembleParts, popLabel, endsColon, ha2]
  · intro m a b b2 pc st s hm hb hib hib2
    have hb2 : regGet b = regGet b2 := by unfold regGet; rw [hb]
    rcases hm with rfl | rfl | rfl <;>
      simp +decide [assembleParts, popLabel, endsColon, hb2, hib, hib2]

/-- C9 witness: `add` in lowercase fails while `ADD r1, r2, r3` written
with lowercase registers encodes exactly like the uppercase form. -/
theorem register_case_insensitive_witness :
    ("ADD" : String) ∈ ADD_CLASS ∧
    toUpperS "r1" = toUpperS "R1" ∧ toUpperS "r2" = toUpperS "R2" ∧
    toUpperS "r3" = toUpperS "R3" ∧
    isIntToken "r3" = false ∧ isIntToken "R3" = false ∧
    assembleParts ["ADD", "r1", "r2", "R3"] 0 [] none =
      assembleParts ["ADD", "R1", "R2", "R3"] 0 [] none ∧
    assembleParts ["ADD", "R1", "R2", "r3"] 0 [] none =
      assembleParts ["ADD", "R1", "R2", "R3"] 0 [] none :=
  ⟨by decide, by decide, by decide, by decide, by decide, by decide,
   register_case_insensitive.1 "ADD" "r1" "r2" "R3" "R1" "R2" 0 [] none
     (by decide) (by decide) (by decide),
   register_case_insensitive.2.1 "ADD" "R1" "R2" "r3" "R3" 0 [] none
     (by decide) (by decide) (by decide) (by decide)⟩

/-! ## Comment handling in the first pass -/

theorem dropWhile_append_cons_of_neg (p : Char → Bool) (a : List Char) (x : Char)
    (c : List Char) (hx : p x = false) :
    List.dropWhile p (a ++ x :: c) = List.dropWhile p a ++ x :: c := by
  induction a with
  | nil => simp [List.dropWhile_cons, hx]
  | cons hd tl ih =>
    by_cases h : p hd = true
    · simp [List.dropWhile_cons, h, ih]
    · simp [List.dropWhile_cons, h]

theorem dropWhile_append_all (p : Char → Bool) (t y : List Char)
    (ht : ∀ x ∈ t, p x = true) :
    List.dropWhile p (t ++ y) = List.dropWhile p y := by
  induction t with
  | nil => rfl
  | cons hd tl ih =>
    simp only [List.cons_append, List.dropWhile_cons, ht hd (List.mem_cons_self hd tl),
      if_true]
    exact ih (fun x hx => ht x (List.mem_cons_of_mem hd hx))

theorem takeWhile_append_cons_of_all (p : Char → Bool) (a : List Char) (x : Char)
    (c : List Char) (ha : ∀ y ∈ a, p y = true) (hx : p x = false) :
    List.takeWhile p (a ++ x :: c) = a := by
  induction a with
  | nil => simp [List.takeWhile_cons, hx]
  | cons hd tl ih =>
    simp only [List.cons_append, List.takeWhile_cons, ha hd (List.mem_cons_self hd tl),
      if_true]
    rw [ih (fun y hy => ha y (List.mem_cons_of_mem hd hy))]

theorem takeWhile_append_stop (p : Char → Bool) (B T : List Char) (x : Char)
    (hxB : x ∈ B) (hx : p x = false) :
    List.takeWhile p (B ++ T) = List.takeWhile p B := by
  induction B with
  | nil => cases hxB
  | cons hd tl ih =>
    by_cases h : p hd = true
    · rcases List.mem_cons.mp hxB with rfl | hxtl
      · rw [h] at hx; cases hx
      · simp [List.takeWhile_cons, h, ih hxtl]
    · simp [List.takeWhile_cons, h]

theorem dropWhile_append_of_ne_nil (p : Char → Bool) (B T : List Char)
    (hB : List.dropWhile p B ≠ []) :
    List.dropWhile p (B ++ T) = List.dropWhile p B ++ T := by
  induction B with
  | nil => exact absurd rfl hB
  | cons hd tl ih =>
    by_cases h : p hd = true
    · have htl : List.dropWhile p tl ≠ [] := by
        simpa [List.dropWhile_cons, h] using hB
      simp [List.dropWhile_cons, h, ih htl]
    · simp [List.dropWhile_cons, h]

theorem dropWhile_head_false (p : Char → Bool) (l : List Char) (x : Char) (xs : List Char)
    (hd : List.dropWhile p l = x :: xs) : p x = false := by
  induction l with
  | nil => cases hd
  | cons a as ih =>
    rw [List.dropWhile_cons] at hd
    split at hd
    · exact ih hd
    · rename_i hpa
      cases hd
      simpa using hpa

theorem dropWhile_idem (p : Char → Bool) (l : List Char) :
    List.dropWhile p (List.dropWhile p l) = List.dropWhile p l := by
  cases hd : List.dropWhile p l with
  | nil => rfl
  | cons x xs =>
    have hx : p x = false := dropWhile_head_false p l x xs hd
    simp [List.dropWhile_cons, hx]

/-- A trailing all-whitespace chunk does not change a Python `strip()`. -/
theorem trimL_append_ws (r T : List Char)
    (hT : ∀ x ∈ T, Char.isWhitespace x = true) :
    trimL (r ++ T) = trimL r := by
  by_cases hr : List.dropWhile Char.isWhitespace r = []
  · have hrall := List.dropWhile_eq_nil_iff.mp hr
    have h1 : List.dropWhile Char.isWhitespace (r ++ T) = [] := by
      rw [List.dropWhile_eq_nil_iff]
      intro x hx
      rcases List.mem_append.mp hx with h | h
      · exact hrall x h
      · exact hT x h
    unfold trimL
    rw [h1, hr]
  · unfold trimL
    rw [dropWhile_append_of_ne_nil _ _ _ hr, List.reverse_append,
      dropWhile_append_all _ _ _ (fun x hx => hT x (List.mem_reverse.mp hx))]

/-- The body of `fpStep` applied to the already comment-stripped text. -/
def fpCore (s : SymTab × Nat) (D : List Char) : SymTab × Nat :=
  if D = [] then s
  else
    match breakColon D with
    | some (label, rest) =>
        if trimL rest ≠ [] then
          (symInsert s.1 (trimS label.asString) (alignDown s.2), s.2 + 4)
        else
          (symInsert s.1 (trimS label.asString) (alignDown s.2), s.2)
    | none => (s.1, s.2 + 4)

theorem fpStep_eq_core (s : SymTab × Nat) (line : String) :
    fpStep s line = fpCore s (stripComment line).data := rfl

/-- Appending trailing whitespace to a comment-stripped line does not
change the first-pass step. -/
theorem fpCore_append_ws (s : SymTab × Nat) (B T : List Char)
    (hT : ∀ x ∈ T, Char.isWhitespace x = true)
    (hBT : B = [] → T = []) :
    fpCore s (B ++ T) = fpCore s B := by
  by_cases hB : B = []
  · have h := hBT hB
    subst h
    subst hB
    rfl
  · have hBTne : B ++ T ≠ [] := fun h => hB (List.append_eq_nil.mp h).1
    unfold fpCore
    rw [if_neg hBTne, if_neg hB]
    by_cases hc : (':' : Char) ∈ B
    · have hbcB : breakColon B =
          some (List.takeWhile (fun ch => ch ≠ ':') B,
            (List.dropWhile (fun ch => ch ≠ ':') B).tail) := by
        unfold breakColon
        rw [if_pos hc]
      have hdwne : List.dropWhile (fun ch => ch ≠ ':') B ≠ [] := by
        rw [Ne, List.dropWhile_eq_nil_iff]
        intro hall
        have h:= hall ':' hc
        simp at h
      have htail : (List.dropWhile (fun ch => ch ≠ ':') B ++ T).tail
          = (List.dropWhile (fun ch => ch ≠ ':') B).tail ++ T := by
        cases hX : List.dropWhile (fun ch => ch ≠ ':') B with
        | nil => exact absurd hX hdwne
        | cons y ys => simp
      have hbcBT : breakColon (B ++ T) =
          some (List.takeWhile (fun ch => ch ≠ ':') B,
            (List.dropWhile (fun ch => ch ≠ ':') B).tail ++ T) := by
        unfold breakColon
        rw [if_pos (List.mem_append.mpr (Or.inl hc)),
          takeWhile_append_stop _ B T ':' hc (by simp),
          dropWhile_append_of_ne_nil _ B T hdwne, htail]
      rw [hbcB, hbcBT]
      dsimp only
      rw [trimL_append_ws _ T hT]
    · have hcBT : (':' : Char) ∉ B ++ T := by
        intro hmem
        rcases List.mem_append.mp hmem with h | h
        · exact hc h
        · exact absurd (hT ':' h) (by decide)
      have h1 : breakColon (B ++ T) = none := by unfold breakColon; rw [if_neg hcBT]
      have h2 : breakColon B = none := by unfold breakColon; rw [if_neg hc]
      rw [h1, h2]

/-- Comment stripping on a line with a `#`: everything from the `#` on is
discarded, leaving the left-trimmed text before it. -/
theorem stripComment_comment (pre c : List Char) (hpre : '#' ∉ pre) :
    (stripComment (pre ++ '#' :: c).asString).data
      = List.dropWhile Char.isWhitespace pre := by
  have hws : Char.isWhitespace '#' = false := by decide
  have htr : trimL (pre ++ '#' :: c)
      = List.dropWhile Char.isWhitespace pre ++
          '#' :: (List.dropWhile Char.isWhitespace c.reverse).reverse := by
    unfold trimL
    rw [dropWhile_append_cons_of_neg _ _ _ _ hws]
    rw [List.reverse_append, List.reverse_cons, List.append_assoc, List.singleton_append]
    rw [dropWhile_append_cons_of_neg _ _ _ _ hws]
    rw [List.reverse_append, List.reverse_cons, List.append_assoc, List.singleton_append,
      List.reverse_reverse]
  show List.takeWhile _ (trimL (pre ++ '#' :: c).asString.data) = _
  rw [data_asString, htr]
  apply takeWhile_append_cons_of_all
  · intro y hy
    have hyp : y ∈ pre := (List.dropWhile_sublist _).subset hy
    simp only [decide_eq_true_eq]
    exact fun h => hpre (h ▸ hyp)
  · simp

/-- Comment stripping on a `#`-free line is just the Python `strip()`. -/
theorem stripComment_nocomment (pre : List Char) (hpre : '#' ∉ pre) :
    (stripComment pre.asString).data = trimL pre := by
  show List.takeWhile _ (trimL pre.asString.data) = _
  rw [data_asString]
  apply List.takeWhile_eq_self_iff.mpr
  intro x hx
  have hmem : x ∈ pre := by
    unfold trimL at hx
    rw [List.mem_reverse] at hx
    have hx2 := (List.dropWhile_sublist _).subset hx
    rw [List.mem_reverse] at hx2
    exact (List.dropWhile_sublist _).subset hx2
  simp only [decide_eq_true_eq]
  exact fun h => hpre (h ▸ hmem)

/-- Processing a left-trimmed text equals processing its fully trimmed
form: the first-pass step ignores trailing whitespace. -/
theorem fpCore_trimL (s : SymTab × Nat) (A : List Char)
    (hA : List.dropWhile Char.isWhitespace A = A) :
    fpCore s A = fpCore s (trimL A) := by
  have hsplit : A = (List.dropWhile Char.isWhitespace A.reverse).reverse
      ++ (List.takeWhile Char.isWhitespace A.reverse).reverse := by
    conv_lhs => rw [← List.reverse_reverse A,
      ← List.takeWhile_append_dropWhile (p := Char.isWhitespace) (l := A.reverse)]
    rw [List.reverse_append]
  have hT : ∀ x ∈ (List.takeWhile Char.isWhitespace A.reverse).reverse,
      Char.isWhitespace x = true := by
    intro x hx
    rw [List.mem_reverse] at hx
    exact List.mem_takeWhile_imp hx
  have htr : trimL A = (List.dropWhile Char.isWhitespace A.reverse).reverse := by
    unfold trimL
    rw [hA]
  have hBT : (List.dropWhile Char.isWhitespace A.reverse).reverse = [] →
      (List.takeWhile Char.isWhitespace A.reverse).reverse = [] := by
    intro hB
    have hdw : List.dropWhile Char.isWhitespace A.reverse = [] := by
      rw [← List.reverse_eq_nil_iff]
      exact hB
    have hall : ∀ x ∈ A.reverse, Char.isWhitespace x = true :=
      List.dropWhile_eq_nil_iff.mp hdw
    have hallA : ∀ x ∈ A, Char.isWhitespace x = true :=
      fun x hx => hall x (List.mem_reverse.mpr hx)
    have hAnil : A = [] :=
      hA.symm.trans (List.dropWhile_eq_nil_iff.mpr hallA)
    rw [hAnil]
    rfl
  conv_lhs => rw [hsplit]
  rw [htr]
  exact fpCore_append_ws s _ _ hT hBT

/-- C5 (amended): the `#` comment is honoured by the FIRST pass only — for
the symbol resolver, a line with a trailing comment steps exactly like the
line with the comment removed, and a line that is blank after stripping
changes neither the table nor the counter.  (The encoder pass does not
strip comments: see the counterexample, where the same text after `#`
changes the encoding result.) -/
theorem comment_first_pass_only :
    (∀ (tbl : SymTab) (pc : Nat) (pre c : List Char), '#' ∉ pre →
      fpStep (tbl, pc) (pre ++ '#' :: c).asString = fpStep (tbl, pc) pre.asString) ∧
    (∀ (tbl : SymTab) (pc : Nat) (line : String),
      (stripComment line).data = [] → fpStep (tbl, pc) line = (tbl, pc)) := by
  constructor
  · intro tbl pc pre c hpre
    rw [fpStep_eq_core, fpStep_eq_core, stripComment_comment pre c hpre,
      stripComment_nocomment pre hpre]
    have heq : trimL (List.dropWhile Char.isWhitespace pre) = trimL pre := by
      unfold trimL
      rw [dropWhile_idem]
    rw [← heq]
    exact fpCore_trimL (tbl, pc) _ (dropWhile_idem _ _)
  · intro tbl pc line h
    rw [fpStep_eq_core]
    unfold fpCore
    rw [if_pos h]

/-- C5 witness: `MOV R1 5 # set` steps like `MOV R1 5 ` in the first pass,
and a pure comment line is a no-op there. -/
theorem comment_first_pass_only_witness :
    ('#' ∉ ("MOV R1 5 " : String).data) ∧
    fpStep ([], 0) (("MOV R1 5 " : String).data ++ '#' :: (" set" : String).data).asString
      = fpStep ([], 0) (("MOV R1 5 " : String).data).asString ∧
    (stripComment "   # only a comment").data = [] ∧
    fpStep ([], 8) "   # only a comment" = ([], 8) :=
  ⟨by decide,
   comment_first_pass_only.1 [] 0 ("MOV R1 5 " : String).data (" set" : String).data
     (by decide),
   by decide,
   comment_first_pass_only.2 [] 8 "   # only a comment" (by decide)⟩

/-! ## Concrete witnesses for the stateful claims -/

/-- C1 witness: after the single stream line `CMP R1, R2`, a `BEQ` to any
label succeeds (and the `MissingComparison` characterization holds). -/
theorem beq_missing_comparison_iff_witness :
    runEnc ["CMP R1, R2"] 0 [] none =
      .ok (["00101000000001001000000000000000"],
        some (some "0001", CmpOperand.reg (some "0010"))) ∧
    (((∃ e, assembleParts ["BEQ", "loop"] 8 []
          (some (some "0001", CmpOperand.reg (some "0010"))) =
            .error (.missingComparison e)) ↔
        ¬ ∃ line ∈ ["CMP R1, R2"], cmpSets (tokenize line) = true) ∧
      ((∃ line ∈ ["CMP R1, R2"], cmpSets (tokenize line) = true) →
        ∃ w, assembleParts ["BEQ", "loop"] 8 []
          (some (some "0001", CmpOperand.reg (some "0010"))) =
            .ok (some w, some (some "0001", CmpOperand.reg (some "0010"))))) :=
  ⟨rfl,
   beq_missing_comparison_iff ["CMP R1, R2"] [] ["00101000000001001000000000000000"]
     (some (some "0001", CmpOperand.reg (some "0010"))) "BEQ" "loop" 8 (Or.inl rfl) rfl⟩

/-- C2 witness: `B start` at pc 8 against `start ↦ 0`. -/
theorem branch_call_encoding_witness :
    ∃ w, assembleParts ["B", "start"] 8 [("start", 0)] none = .ok (some w, none) ∧
      w.length = 32 ∧
      w.data.take 5 = ((OPCODES "B").getD "").data ∧
      (∀ c ∈ w.data.drop 5, c = '0' ∨ c = '1') ∧
      (bitsVal (w.data.drop 5) : Int) =
        ((((symGet [("start", 0)] "start").getD 0 : Nat) : Int) - ((8 : Int) + 4)) %
          134217728 :=
  branch_call_encoding "B" "start" 8 [("start", 0)] none
    (Or.inr (Or.inr (Or.inl rfl)))
    (by intro h; rcases h with h | h <;> exact absurd h (by decide))

/-- C4 (amended) witness: the word emitted for `ADD R1 RX 5` has length 32
and stays within the allowed character set. -/
theorem emitted_word_length_charset_witness :
    ("0000010001None000000000000000101" : String).length = 32 ∧
    ∀ c ∈ ("0000010001None000000000000000101" : String).data, charOK c :=
  emitted_word_length_charset ["ADD", "R1", "RX", "5"] 0 [] none
    "0000010001None000000000000000101" none rfl

end Assembler
